/-
Verification of the TOC subsystem of `jupyter_book` (`jupyter_book/toc.py`).

The Python source is shallowly embedded: Python strings become `List Char`,
`pathlib.PurePosixPath` operations are modelled by an explicit
parse/render pair (`splitSlash`, `rootOf`, `partsOf`, `renderPath`), dicts
loaded from the YAML manifest become the inductive `Page`, the scanned
content directory becomes the inductive `FSTree`, and Python exceptions
become `Except String _` / `Option _` results.
-/
import Mathlib

namespace JBToc

/-- Python `str` values are modelled as lists of characters. -/
abbrev Str := List Char

/-- Equality of `Except` results is decidable when both components are. -/
instance {ε α : Type} [DecidableEq ε] [DecidableEq α] : DecidableEq (Except ε α) := fun a b =>
  match a, b with
  | .ok x, .ok y =>
    if h : x = y then .isTrue (congrArg Except.ok h)
    else .isFalse (fun hh => h (Except.ok.inj hh))
  | .error e, .error f =>
    if h : e = f then .isTrue (congrArg Except.error h)
    else .isFalse (fun hh => h (Except.error.inj hh))
  | .ok _, .error _ => .isFalse (fun hh => Except.noConfusion hh)
  | .error _, .ok _ => .isFalse (fun hh => Except.noConfusion hh)

/-! ## Model of `pathlib.PurePosixPath` (used by `_no_suffix`, `Path.suffix`,
`Path.with_suffix`, `Path.name`, `str(Path(...))`).

`PurePosixPath` parses a string by splitting on `/`, recording a root
(`//` when the string has exactly two leading slashes, `/` when it has one
or three-plus), and keeping the non-empty chunks different from `.` as its
parts.  `str()` joins the parts back with `/` (or gives `.` for an empty
relative path). -/

/-- One step of splitting a string on a separator character, from the right. -/
def splitStep (sep : Char) (c : Char) (acc : List Str) : List Str :=
  match acc with
  | [] => [[c]]
  | h :: t => if c = sep then [] :: h :: t else (c :: h) :: t

/-- Fold `splitStep` over the characters, with an explicit accumulator. -/
def splitAux (sep : Char) : Str → List Str → List Str
  | [], acc => acc
  | c :: cs, acc => splitStep sep c (splitAux sep cs acc)

/-- Python `s.split(sep)` for a one-character separator. -/
def splitOnC (sep : Char) (s : Str) : List Str := splitAux sep s [[]]

/-- Splitting a path string on `/`. -/
def splitSlash (s : Str) : List Str := splitOnC '/' s

/-- Number of leading `/` characters of a string. -/
def leadSlashes (s : Str) : Nat := (s.takeWhile (fun c => c = '/')).length

/-- The root of a POSIX path, as the number of rendered leading slashes:
`2` for exactly two leading slashes, `1` for one or at least three, `0`
for a relative path (mirrors `_PosixFlavour.splitroot`). -/
def rootOf (s : Str) : Nat :=
  let n := leadSlashes s
  if n = 2 then 2 else if 1 ≤ n then 1 else 0

/-- A chunk survives parsing when it is non-empty and not `.`. -/
def keepPart (c : Str) : Bool := !c.isEmpty && !(c = ['.'] : Bool)

/-- The relative parts of a parsed POSIX path. -/
def partsOf (s : Str) : List Str := (splitSlash s).filter keepPart

/-- Join parts with `/` separators (no leading separator). -/
def joinParts : List Str → Str
  | [] => []
  | [p] => p
  | p :: q :: ps => p ++ '/' :: joinParts (q :: ps)

/-- Render a parsed path back to a string, as `PurePath.__str__` does:
root slashes followed by the joined parts, or `.` when both are empty. -/
def renderPath (root : Nat) (parts : List Str) : Str :=
  if root = 0 ∧ parts = [] then ['.']
  else (if root = 2 then ['/', '/'] else if root = 1 then ['/'] else []) ++ joinParts parts

/-- Python `Path(s).name`: the last relative part, or the empty string. -/
def pathName (s : Str) : Str := (partsOf s).getLastD []

/-- Python `PurePath.suffix` applied to a file name: the part of the name
from its last dot onwards, provided that dot is neither the first nor the
last character; otherwise the empty suffix.  `with_suffix("")` drops it.
This strips the suffix (mirrors `name[:-len(old_suffix)]`). -/
def stripName (name : Str) : Str :=
  let e := (name.reverse.takeWhile (fun c => !(c = '.' : Bool))).length
  if 0 < e ∧ e < name.length - 1 then name.take (name.length - 1 - e) else name

/-- Python `PurePath.suffix` applied to a file name (the dropped part). -/
def nameSuffix (name : Str) : Str :=
  let e := (name.reverse.takeWhile (fun c => !(c = '.' : Bool))).length
  if 0 < e ∧ e < name.length - 1 then name.drop (name.length - 1 - e) else []

/-- Python `Path(path).suffix` for a whole path string. -/
def pathSuffix (s : Str) : Str := nameSuffix (pathName s)

/-- Model of `_no_suffix` (toc.py lines 8-11) on a string argument:
`str(Path(path).with_suffix(""))`.  `with_suffix` raises `ValueError`
when the path has an empty name (e.g. `""`, `"."`, `"/"`), modelled as
`none`; otherwise the last suffix of the name is stripped and the path is
rendered back to a string. -/
def noSuffix (s : Str) : Option Str :=
  match (partsOf s).getLast? with
  | none => none
  | some nm => some (renderPath (rootOf s) ((partsOf s).dropLast ++ [stripName nm]))

/-! ## Model of `_filename_to_title` (toc.py lines 126-138) -/

/-- Digits possibly separated by single underscores (the tail of a Python
integer literal as accepted by `int(...)` for Python 3.6+). -/
def digitsUS : Str → Bool
  | [] => true
  | ['_'] => false
  | '_' :: c :: r => c.isDigit && digitsUS (c :: r)
  | c :: r => c.isDigit && digitsUS r

/-- Whether Python `int(s)` succeeds: optional surrounding whitespace, an
optional sign, then at least one digit (underscore separators allowed). -/
def pyIntOK (s : Str) : Bool :=
  let t := ((s.dropWhile Char.isWhitespace).reverse.dropWhile Char.isWhitespace).reverse
  let t := match t with
    | '+' :: r => r
    | '-' :: r => r
    | r => r
  match t with
  | [] => false
  | c :: r => c.isDigit && digitsUS r

/-- Python `str.capitalize()`: first character upper-cased, the rest
lower-cased (ASCII model). -/
def capitalizeStr : Str → Str
  | [] => []
  | c :: r => c.toUpper :: r.map Char.toLower

/-- Join strings with a given separator character. -/
def joinWith (sep : Char) : List Str → Str
  | [] => []
  | [p] => p
  | p :: q :: ps => p ++ sep :: joinWith sep (q :: ps)

/-- Model of `_filename_to_title(filename, split_char)` (toc.py 126-138):
take the path's name with its suffix stripped (raising `ValueError`,
modelled as `.error`, when the name is empty), split it on the split
character, drop a leading token that parses as an integer when more tokens
remain, capitalize each remaining token and join them with spaces. -/
def filenameToTitle (filename : Str) (split : Char) : Except Str Str :=
  match (partsOf filename).getLast? with
  | none => .error "ValueError: empty name".toList
  | some nm =>
    let base := stripName nm
    let fparts := splitOnC split base
    let fparts := if pyIntOK (fparts.headD []) ∧ 1 < fparts.length then fparts.tail else fparts
    .ok (joinWith ' ' (fparts.map capitalizeStr))

/-! ## Model of the content directory and of `pathlib` globbing
(`_list_supported_files`, toc.py lines 174-181).

The filesystem is a tree of named entries.  `Path.glob("*<suffix>")`
yields the children of a directory whose name ends in the suffix, in the
order the OS enumerates them (it does not sort), and matches directories
as well as files.  `Path.rglob("*<suffix>")` walks the directory and its
subdirectories depth-first (each directory before its subdirectories,
children in enumeration order) and applies the same name match in each. -/

inductive FSTree where
  | file (name : Str)
  | dir (name : Str) (children : List FSTree)
deriving Repr

/-- Name of a filesystem entry. -/
def FSTree.name : FSTree → Str
  | .file n => n
  | .dir n _ => n

/-- Python `Path.is_dir()` for an entry that exists. -/
def FSTree.isDirB : FSTree → Bool
  | .file _ => false
  | .dir _ _ => true

/-- Children of an entry (empty for plain files). -/
def FSTree.childrenOf : FSTree → List FSTree
  | .file _ => []
  | .dir _ cs => cs

/-- Python `sub in "whole"` substring membership. -/
def containsSub (pat : Str) : Str → Bool
  | [] => pat.isEmpty
  | c :: rest => pat.isPrefixOf (c :: rest) || containsSub pat rest

/-- Non-recursive `directory.glob("*" + suffix)`: children whose name ends
with the suffix, each as a one-part relative path, in enumeration order. -/
def globMatch (suffix : Str) (t : FSTree) : List (List Str) :=
  (t.childrenOf.filter (fun c => suffix.isSuffixOf c.name)).map (fun c => [c.name])

mutual

/-- The directories visited by `Path.rglob`, in visiting order, each with
its relative path prefix and its children: the directory itself first, then
the directories below each of its child directories, in enumeration order. -/
def dirsPreorder : FSTree → List (List Str × List FSTree)
  | .file _ => []
  | .dir _ cs => ([], cs) :: dirsPreorderList cs

/-- The directories visited below the members of a child list. -/
def dirsPreorderList : List FSTree → List (List Str × List FSTree)
  | [] => []
  | c :: rest =>
    (if c.isDirB then (dirsPreorder c).map (fun pc => (c.name :: pc.1, pc.2)) else [])
      ++ dirsPreorderList rest

end

/-- Recursive `directory.rglob("*" + suffix)`: for each visited directory,
its children whose name ends with the suffix, as relative paths. -/
def rglobMatch (suffix : Str) (t : FSTree) : List (List Str) :=
  (dirsPreorder t).flatMap
    (fun pc => (pc.2.filter (fun c => suffix.isSuffixOf c.name)).map (fun c => pc.1 ++ [c.name]))

/-- `SUPPORTED_FILE_SUFFIXES` (toc.py line 124). -/
def SUPPORTED_FILE_SUFFIXES : List Str :=
  [".ipynb".toList, ".md".toList, ".markdown".toList, ".Rmd".toList, ".py".toList, "#BREAK#".toList]

/-- Model of `_list_supported_files(directory, exclude=["LICENSE.md"], rglob)`
(toc.py 174-181): for each supported suffix in order, the glob matches whose
file name is not `LICENSE.md` and whose full path string does not contain
`ipynb_checkpoints`.  `tParts` is the path of `directory` as passed, so the
returned relative paths can be prefixed as `Path.glob` prefixes them. -/
def listSupportedFiles (t : FSTree) (tParts : List Str) (rec : Bool) : List (List Str) :=
  SUPPORTED_FILE_SUFFIXES.flatMap (fun suf =>
    (if rec then rglobMatch suf t else globMatch suf t).filter (fun rel =>
      !(rel.getLastD [] = "LICENSE.md".toList : Bool)
        && !containsSub "ipynb_checkpoints".toList (joinParts (tParts ++ rel))))

/-! ## Model of `build_toc` (toc.py lines 184-231) -/

/-- Python `str(Path(*parts))` for plain (separator-free) parts:
the parts joined with `/`, or `.` when there are none. -/
def renderParts (parts : List Str) : Str :=
  if parts.isEmpty then ['.'] else joinParts parts

/-- Python `path.with_suffix("")` on a path given by its parts: raises
`ValueError` (modelled as `.error`) when there is no final part, otherwise
strips the last part's suffix. -/
def withSuffixEmptyParts (parts : List Str) : Except Str (List Str) :=
  match parts.getLast? with
  | none => .error "ValueError: empty name".toList
  | some nm => .ok (parts.dropLast ++ [stripName nm])

/-- One record of the generated table of contents, before serialization:
`{"path": p}` for a top-level file, `{"url": u}` for a file inside a
subdirectory, `{"header": h}` for a subdirectory heading, and the literal
`"## REPLACE ##"` section-break marker string. -/
inductive TocEntry where
  | pathRec (p : Str)
  | urlRec (u : Str)
  | headerRec (h : Str)
  | marker
deriving DecidableEq, Repr

/-- Lexicographic comparison of strings by character code point, as Python
compares strings (and `Path` objects sharing a parent directory). -/
def leStr : Str → Str → Bool
  | [], _ => true
  | _ :: _, [] => false
  | a :: as, b :: bs => if a < b then true else if b < a then false else leStr as bs

/-- Insert into a sorted list in front of the first element that is not
strictly smaller (so the insertion is stable). -/
def insertSorted (le : α → α → Bool) (x : α) : List α → List α
  | [] => [x]
  | y :: ys => if le x y then x :: y :: ys else y :: insertSorted le x ys

/-- Stable insertion sort.  Python's `sorted(...)` is a stable sort by the
same total preorder, so it produces the same list. -/
def sortStable (le : α → α → Bool) : List α → List α
  | [] => []
  | x :: xs => insertSorted le x (sortStable le xs)

/-- The subdirectory list of toc.py lines 211-212: the children that are
directories and whose name does not contain `.ipynb_checkpoints`, sorted
(Python sorts the `Path` objects, which here compares the names). -/
def sortedSubdirs (t : FSTree) : List FSTree :=
  sortStable (fun a b => leStr a.name b.name)
    (t.childrenOf.filter (fun c => c.isDirB && !containsSub ".ipynb_checkpoints".toList c.name))

/-- Exception-propagating map, as a Python `for` loop over a list whose
body may raise behaves. -/
def mapExcept (f : α → Except ε β) : List α → Except ε (List β)
  | [] => .ok []
  | x :: xs =>
    match f x with
    | .error e => .error e
    | .ok y =>
      match mapExcept f xs with
      | .error e => .error e
      | .ok ys => .ok (y :: ys)

/-- The record built for one top-level file (toc.py 205-208): suffix
stripped, first path component dropped, rendered back to a string. -/
def topRecord (contentParts : List Str) (rel : List Str) : Except Str TocEntry :=
  match withSuffixEmptyParts (contentParts ++ rel) with
  | .error e => .error e
  | .ok stripped => .ok (TocEntry.pathRec (renderParts (stripped.drop 1)))

/-- The record built for one file found under a subdirectory
(toc.py 224-227). -/
def urlRecord (base : List Str) (rel : List Str) : Except Str TocEntry :=
  match withSuffixEmptyParts (base ++ rel) with
  | .error e => .error e
  | .ok stripped => .ok (TocEntry.urlRec (renderParts (stripped.drop 1)))

/-- The records contributed by one subdirectory (toc.py 214-227): nothing
when it holds no supported file, otherwise a section-break marker, a header
derived from the directory name, and one `url` record per file found
recursively. -/
def subdirBlock (contentParts : List Str) (split : Char) (sub : FSTree) : Except Str (List TocEntry) :=
  let ipaths := listSupportedFiles sub (contentParts ++ [sub.name]) true
  if ipaths.length = 0 then .ok []
  else
    match filenameToTitle sub.name split with
    | .error e => .error e
    | .ok title =>
      match mapExcept (urlRecord (contentParts ++ [sub.name])) ipaths with
      | .error e => .error e
      | .ok urls => .ok (TocEntry.marker :: TocEntry.headerRec title :: urls)

/-- The ordered record sequence `toc_pages` built by `build_toc`
(toc.py 201-227): records for the supported top-level files, then the
blocks of the sorted subdirectories. -/
def buildTocEntries (t : FSTree) (contentParts : List Str) (split : Char) :
    Except Str (List TocEntry) :=
  match mapExcept (topRecord contentParts) (listSupportedFiles t contentParts false) with
  | .error e => .error e
  | .ok top =>
    match mapExcept (subdirBlock contentParts split) (sortedSubdirs t) with
    | .error e => .error e
    | .ok subLists => .ok (top ++ subLists.flatten)

/-- Modelled from the spec: PyYAML `safe_dump` of one record, in block
style with plain scalars (the values generated by `build_toc` need no
quoting); the literal marker string is quoted because it starts with `#`. -/
def dumpEntry : TocEntry → Str
  | .pathRec p => "- path: ".toList ++ p ++ ['\n']
  | .urlRec u => "- url: ".toList ++ u ++ ['\n']
  | .headerRec h => "- header: ".toList ++ h ++ ['\n']
  | .marker => "- '## REPLACE ##'\n".toList

/-- Modelled from the spec: PyYAML `safe_dump` of the record list
(`[]` followed by a newline for the empty list). -/
def yamlDump (es : List TocEntry) : Str :=
  match es with
  | [] => "[]\n".toList
  | _ => (es.map dumpEntry).flatten

/-- The serialized form of the section-break marker record, the exact text
removed by `.replace("- '## REPLACE ##'", "")` (toc.py line 230). -/
def SECTION_MARKER : Str := "- '## REPLACE ##'".toList

/-- Python `s.replace(pat, "")`: remove the leftmost occurrence of `pat`
and continue after it.  The fuel argument is the length of the remaining
string, which never runs out. -/
def removeOccF (pat : Str) : Nat → Str → Str
  | _, [] => []
  | 0, s => s
  | fuel + 1, c :: rest =>
    if pat ≠ [] ∧ pat.isPrefixOf (c :: rest) then
      removeOccF pat fuel (List.drop pat.length (c :: rest))
    else c :: removeOccF pat fuel rest

/-- Python `s.replace(pat, "")`. -/
def removeOcc (pat s : Str) : Str := removeOccF pat s.length s

/-- The error message of toc.py line 197 (`ValueError`, which the spec
names `InvalidContentDirectoryError`). -/
def dirErrMsg (contentParts : List Str) : Str :=
  "Could not find the provided content folder\n".toList ++ renderParts contentParts

/-- Model of `build_toc(content_folder, filename_split_char)`
(toc.py 184-231).  `target` is the filesystem entry the content folder
path refers to (`none` when the path does not exist); a missing or
non-directory target raises the `ValueError` of line 197.  Otherwise the
record sequence is serialized, the marker lines are removed, and — as the
code's `"\n".join(out)` does to the string it is given — a newline is
interleaved between every pair of characters.  The stray
`import IPython; IPython.embed()` of line 228 only starts an interactive
shell and leaves the value untouched, so it has no model. -/
def build_toc (target : Option FSTree) (contentParts : List Str) (split : Char) :
    Except Str Str :=
  match target with
  | some (FSTree.dir n cs) =>
    match buildTocEntries (FSTree.dir n cs) contentParts split with
    | .error e => .error e
    | .ok entries => .ok (List.intersperse '\n' (removeOcc SECTION_MARKER (yamlDump entries)))
  | _ => .error (dirErrMsg contentParts)

/-! ## Model of the loaded manifest (`Page`) and of `find_name`
(toc.py lines 14-31) -/

/-- A record of the loaded manifest, with the fields the verified functions
consult: `path`, `url`, `header` (absent keys are `none`, as `dict.get`
returns `None`) and the `sections` list.  Other manifest fields play no
role in the functions under verification. -/
inductive Page where
  | mk (path url header : Option Str) (sections : List Page)

mutual

/-- Equality of pages is decidable. -/
def pageDecEq : (a b : Page) → Decidable (a = b)
  | Page.mk p1 u1 h1 s1, Page.mk p2 u2 h2 s2 =>
    have : Decidable (s1 = s2) := pageListDecEq s1 s2
    decidable_of_iff (p1 = p2 ∧ u1 = u2 ∧ h1 = h2 ∧ s1 = s2) (by rw [Page.mk.injEq])

/-- Equality of page lists is decidable. -/
def pageListDecEq : (a b : List Page) → Decidable (a = b)
  | [], [] => .isTrue rfl
  | [], _ :: _ => .isFalse (fun hh => List.noConfusion hh)
  | _ :: _, [] => .isFalse (fun hh => List.noConfusion hh)
  | x :: xs, y :: ys =>
    have : Decidable (x = y) := pageDecEq x y
    have : Decidable (xs = ys) := pageListDecEq xs ys
    decidable_of_iff (x = y ∧ xs = ys) (by rw [List.cons.injEq])

end

instance : DecidableEq Page := pageDecEq

/-- `page.get("path")`. -/
def Page.path : Page → Option Str
  | .mk p _ _ _ => p

/-- `page.get("url")`. -/
def Page.url : Page → Option Str
  | .mk _ u _ _ => u

/-- `page.get("header")`. -/
def Page.header : Page → Option Str
  | .mk _ _ h _ => h

/-- `page.get("sections", [])`. -/
def Page.sections : Page → List Page
  | .mk _ _ _ s => s

/-- `_no_suffix(page.get("path"))`: `None` passes through unchanged, a
string is normalized, which may raise `ValueError`. -/
def noSuffixGet : Option Str → Except Str (Option Str)
  | none => .ok none
  | some s =>
    match noSuffix s with
    | none => .error "ValueError: empty name".toList
    | some r => .ok (some r)

mutual

/-- The body of `find_name`'s loop for one page (toc.py 24-31): return the
page when its normalized path equals the key, otherwise search its
`sections`. -/
def checkPage : Page → Str → Except Str (Option Page)
  | Page.mk pa u hh secs, name =>
    match noSuffixGet pa with
    | .error e => .error e
    | .ok v =>
      if v = some name then .ok (some (Page.mk pa u hh secs))
      else findNameE secs name

/-- Model of `find_name(pages, name)` (toc.py 14-31) on a list argument:
scan the pages left to right; for each, check the page itself and then its
subtree, returning the first match; `None` (here `.ok none`) when the loop
falls through.  A `ValueError` raised by `_no_suffix` propagates. -/
def findNameE : List Page → Str → Except Str (Option Page)
  | [], _ => .ok none
  | p :: rest, name =>
    match checkPage p name with
    | .error e => .error e
    | .ok (some q) => .ok (some q)
    | .ok none => findNameE rest name

end

mutual

/-- The nodes of one page's subtree, the page first (pre-order). -/
def pageNodes : Page → List Page
  | Page.mk pa u hh secs => Page.mk pa u hh secs :: allNodesL secs

/-- All nodes of a page forest in pre-order, left to right: the order in
which `find_name` tests nodes. -/
def allNodesL : List Page → List Page
  | [] => []
  | p :: rest => pageNodes p ++ allNodesL rest

end

/-- Whether `_no_suffix` succeeds on a page's `path` field (vacuously when
the page has none). -/
def pageKeyOK (p : Page) : Bool :=
  match p.path with
  | none => true
  | some s => (noSuffix s).isSome

/-- Every node of the forest has a normalizable (or absent) path, so
`find_name` raises no `ValueError` on it. -/
def pathsNormalize (pages : List Page) : Bool := (allNodesL pages).all pageKeyOK

/-- The normalized path of a page, when it has one. -/
def pageKey (p : Page) : Option Str := p.path.bind noSuffix

/-- The normalized paths present in a forest. -/
def normalizedKeys (pages : List Page) : List Str := (allNodesL pages).filterMap pageKey

/-! ## Model of `update_indexname` (toc.py lines 102-117) -/

/-- Model of `update_indexname` for a manifest that parsed as a list:
record 0 becomes the root; when more records follow they are installed as
the root's `sections`, replacing any it had; `master_doc` becomes the
suffix-stripped path of the root record.  An empty list raises
`IndexError` at `toc[0]`, a root without `path` raises `KeyError` at
`toc_updated["path"]`, and `_no_suffix` may raise `ValueError`.  The
result is the pair (`globaltoc`, `master_doc`). -/
def update_indexname (toc : List Page) : Except Str (Page × Str) :=
  match toc with
  | [] => .error "IndexError: list index out of range".toList
  | Page.mk pa u hh secs :: rest =>
    let updated := if 0 < rest.length then Page.mk pa u hh rest else Page.mk pa u hh secs
    match pa with
    | none => .error "KeyError: path".toList
    | some s =>
      match noSuffix s with
      | none => .error "ValueError: empty name".toList
      | some m => .ok (updated, m)

/-! ## Model of `add_toctree` (toc.py lines 34-99).

The lookup head (lines 41-47) and the format dispatch of the injection
(lines 73 and 88-99) are modelled.  The directive block built in between
(lines 50-87) is a renderer-specific text that none of the verified claims
constrain, so the dispatch takes the finished directive text as an
argument. -/

/-- The message of the `FileNotFoundError` raised at toc.py line 47. -/
def tocNotFoundMsg (path : Str) : Str :=
  "The following path in your table of contents couldn't be found:\n\n".toList
    ++ path
    ++ ".\n\nDouble check your `_toc.yml` file to make sure the paths are correct.".toList

/-- Model of toc.py lines 41-47: normalize the rendered document's path,
look it up in the loaded tree (a single root dict, which `find_name` wraps
in a list), and raise `FileNotFoundError` when the lookup misses. -/
def add_toctree_lookup (toc : Page) (path : Str) : Except Str Page :=
  match noSuffix path with
  | none => .error "ValueError: empty name".toList
  | some key =>
    match findNameE [toc] key with
    | .error e => .error e
    | .ok none => .error (tocNotFoundMsg path)
    | .ok (some page) => .ok page

/-- A notebook cell: nbformat distinguishes markdown cells from other cell
types; only the type and source text matter here. -/
inductive Cell where
  | markdown (text : Str)
  | code (text : Str)
deriving DecidableEq

/-- Modelled from the spec: `nbformat.v4.new_markdown_cell` wraps a text as
a markdown-type cell. -/
def new_markdown_cell (text : Str) : Cell := Cell.markdown text

/-- Serialization of one cell in the modelled canonical notebook form:
a type tag, the decimal length of the text, a colon, and the text. -/
def writesCell : Cell → Str
  | .markdown t => 'm' :: Nat.toDigits 10 t.length ++ ':' :: t
  | .code t => 'c' :: Nat.toDigits 10 t.length ++ ':' :: t

/-- Modelled from the spec: `nbformat.writes`, the canonical textual form
of a notebook — the serialization of its ordered cell sequence.  nbformat
is an external library; only that `reads` recovers what `writes` produced
and that cells keep their order and type matters to the claims. -/
def writesNb (cells : List Cell) : Str := (cells.map writesCell).flatten

/-- Decimal digits to a number (`none` on a non-digit). -/
def digitsToNatAux : Str → Nat → Option Nat
  | [], acc => some acc
  | c :: r, acc =>
    if c.isDigit then digitsToNatAux r (acc * 10 + (c.toNat - '0'.toNat)) else none

/-- Parser for the modelled notebook form, with fuel (the remaining
length, which a tag character per cell keeps adequate). -/
def readsNbF (fuel : Nat) (s : Str) : Option (List Cell) :=
  match fuel, s with
  | _, [] => some []
  | 0, _ :: _ => none
  | fuelN + 1, tag :: rest =>
    let digs := rest.takeWhile Char.isDigit
    match rest.dropWhile Char.isDigit with
    | ':' :: body =>
      if digs.isEmpty then none
      else
        match digitsToNatAux digs 0 with
        | none => none
        | some n =>
          if n ≤ body.length then
            match readsNbF fuelN (body.drop n) with
            | none => none
            | some cells =>
              match tag with
              | 'm' => some (Cell.markdown (body.take n) :: cells)
              | 'c' => some (Cell.code (body.take n) :: cells)
              | _ => none
          else none
    | _ => none

/-- Modelled from the spec: `nbformat.reads`, parsing the canonical
textual form back to the ordered cell sequence (`none` for unreadable
input). -/
def readsNb (s : Str) : Option (List Cell) := readsNbF s.length s

/-- The message of the `ValueError` raised at toc.py line 99. -/
def unsupportedMsg : Str := "Only markdown and ipynb files are supported.".toList

/-- Model of the injection dispatch of `add_toctree` (toc.py 73, 88-99):
`suff = Path(path).suffix`; for `.md` the directive is appended to the
textual source (the code adds a final newline), for `.ipynb` the source is
parsed as a notebook, a markdown cell holding the directive is appended
and the notebook re-serialized, and any other suffix raises `ValueError`. -/
def injectSource (path : Str) (source : Str) (toctree : Str) : Except Str Str :=
  let suff := pathSuffix path
  if suff = ".md".toList then .ok (source ++ toctree ++ "\n".toList)
  else if suff = ".ipynb".toList then
    match readsNb source with
    | none => .error "nbformat: could not read notebook".toList
    | some ntbk => .ok (writesNb (ntbk ++ [new_markdown_cell toctree]))
  else .error unsupportedMsg

/-! ## Auxiliary definitions used by the statements -/

/-- Whether an `Except` computation returned normally. -/
def isOkE : Except ε α → Bool
  | .ok _ => true
  | .error _ => false

/-- A sane filesystem entry name: non-empty, not `.`, and without a path
separator — every name a real directory scan can produce. -/
def wfName (n : Str) : Bool := !n.isEmpty && !(n = ['.'] : Bool) && !n.contains '/'

/-- The predicate `find_name` tests on one node for a string key. -/
def keyMatch (key : Str) (p : Page) : Bool := decide (pageKey p = some key)

/-- The content directory `root/{01_intro.md, 02_data/{a.md, b.md}}` of the
round-trip auto-generation property, children listed in sorted order. -/
def fsExampleC1 : FSTree :=
  FSTree.dir "root".toList
    [FSTree.file "01_intro.md".toList,
     FSTree.dir "02_data".toList [FSTree.file "a.md".toList, FSTree.file "b.md".toList]]

/-- The record sequence `build_toc` assembles for `fsExampleC1`. -/
def c1Entries : List TocEntry :=
  [TocEntry.pathRec "01_intro".toList, TocEntry.marker,
   TocEntry.headerRec "Data".toList,
   TocEntry.urlRec "02_data/a".toList, TocEntry.urlRec "02_data/b".toList]

/-- The text `build_toc` returns for `fsExampleC1`. -/
def c1Output : Str := List.intersperse '\n' (removeOcc SECTION_MARKER (yamlDump c1Entries))

/-- A content directory whose files, in sorted enumeration order, carry
different supported suffixes: `root/{a.md, b.ipynb}`. -/
def fsExampleC5 : FSTree :=
  FSTree.dir "root".toList [FSTree.file "a.md".toList, FSTree.file "b.ipynb".toList]

/-- A node of `c3Pages` nested one level down. -/
def c3Node : Page := Page.mk (some "ch1/a.md".toList) none none []

/-- A small loaded manifest tree with unique normalized paths. -/
def c3Pages : List Page :=
  [Page.mk (some "index".toList) none none
     [c3Node, Page.mk none (some "u".toList) none []],
   Page.mk (some "ch2".toList) none none []]

/-! ## Properties of splitting and rendering -/

theorem splitAux_ne_nil (sep : Char) (s : Str) (h : Str) (t : List Str) :
    splitAux sep s (h :: t) ≠ [] := by
  induction s with
  | nil => simp [splitAux]
  | cons c cs ih =>
    simp only [splitAux]
    cases hx : splitAux sep cs (h :: t) with
    | nil => exact absurd hx ih
    | cons a b =>
      simp only [splitStep]
      split <;> simp

theorem splitAux_append (sep : Char) (xs ys : Str) (acc : List Str) :
    splitAux sep (xs ++ ys) acc = splitAux sep xs (splitAux sep ys acc) := by
  induction xs with
  | nil => simp [splitAux]
  | cons c cs ih => simp [splitAux, ih]

theorem splitAux_cons_tail (sep : Char) (xs : Str) (h : Str) (t : List Str) :
    splitAux sep xs (h :: t) = splitAux sep xs [h] ++ t := by
  induction xs with
  | nil => simp [splitAux]
  | cons c cs ih =>
    simp only [splitAux, ih]
    cases hx : splitAux sep cs [h] with
    | nil => exact absurd hx (splitAux_ne_nil sep cs h [])
    | cons a b =>
      simp only [List.cons_append, splitStep]
      split <;> simp

theorem splitAux_no_sep (sep : Char) (xs : Str) (h : Str) (hx : ∀ c ∈ xs, c ≠ sep) :
    splitAux sep xs [h] = [xs ++ h] := by
  induction xs with
  | nil => simp [splitAux]
  | cons c cs ih =>
    have hc : c ≠ sep := hx c (by simp)
    rw [splitAux, ih (fun a ha => hx a (by simp [ha]))]
    simp [splitStep, hc]

theorem splitAux_single (sep : Char) (xs : Str) (y : Str) :
    splitAux sep xs [y] =
      (splitAux sep xs [[]]).dropLast ++ [(splitAux sep xs [[]]).getLastD [] ++ y] := by
  induction xs with
  | nil => simp [splitAux]
  | cons c cs ih =>
    simp only [splitAux, ih]
    cases hx : splitAux sep cs [[]] with
    | nil => exact absurd hx (splitAux_ne_nil sep cs [] [])
    | cons a b =>
      cases b with
      | nil =>
        simp only [List.dropLast_single, List.getLastD_cons, List.getLastD_nil,
          List.nil_append, splitStep]
        split <;> simp [List.getLastD_cons, List.getLastD_nil]
      | cons b0 b1 =>
        simp only [List.dropLast_cons₂, List.getLastD_cons, List.cons_append, splitStep]
        split <;>
          simp [List.dropLast_cons₂, List.getLastD_cons, List.getLast?_cons,
            List.getLastD_eq_getLast?]

theorem splitSlash_append_noslash (s y : Str) (hy : ∀ c ∈ y, c ≠ '/') :
    splitSlash (s ++ y) =
      (splitSlash s).dropLast ++ [(splitSlash s).getLastD [] ++ y] := by
  have h1 : splitSlash (s ++ y) = splitAux '/' s [y] := by
    rw [splitSlash, splitOnC, splitAux_append]
    rw [show splitAux '/' y [[]] = [y ++ []] from splitAux_no_sep '/' y [] hy]
    simp
  rw [h1, splitAux_single]
  rfl

theorem splitAux_chunks_no_sep (sep : Char) (s : Str) (h : Str) (t : List Str)
    (hacc : ∀ x ∈ h :: t, sep ∉ x) : ∀ x ∈ splitAux sep s (h :: t), sep ∉ x := by
  induction s with
  | nil => simpa [splitAux] using hacc
  | cons c cs ih =>
    intro x hmem
    rw [splitAux] at hmem
    rcases hx : splitAux sep cs (h :: t) with _ | ⟨a, b⟩
    · exact absurd hx (splitAux_ne_nil sep cs h t)
    · have iha : ∀ z ∈ a :: b, sep ∉ z := fun z hz => ih z (hx ▸ hz)
      rw [hx] at hmem
      simp only [splitStep] at hmem
      by_cases hc : c = sep
      · simp only [if_pos hc] at hmem
        rcases List.mem_cons.mp hmem with rfl | hmem2
        · simp
        · exact iha x hmem2
      · simp only [if_neg hc] at hmem
        rcases List.mem_cons.mp hmem with rfl | hmem2
        · intro hin
          rcases List.mem_cons.mp hin with heq | hin2
          · exact hc heq.symm
          · exact iha a (by simp) hin2
        · exact iha x (List.mem_cons_of_mem a hmem2)

theorem splitSlash_chunks_no_slash (s : Str) : ∀ x ∈ splitSlash s, ('/' : Char) ∉ x := by
  have := splitAux_chunks_no_sep '/' s [] [] (by simp)
  simpa [splitSlash, splitOnC] using this

theorem partsOf_no_slash (s : Str) : ∀ x ∈ partsOf s, ('/' : Char) ∉ x := by
  intro x hx
  exact splitSlash_chunks_no_slash s x (List.mem_of_mem_filter hx)

theorem partsOf_keep (s : Str) : ∀ x ∈ partsOf s, x ≠ [] ∧ x ≠ ['.'] := by
  intro x hx
  have h := List.of_mem_filter hx
  simp only [keepPart, Bool.and_eq_true, Bool.not_eq_true', List.isEmpty_eq_false,
    decide_eq_false_iff_not] at h
  constructor
  · simpa using h.1
  · simpa using h.2

theorem splitSlash_sep_cons (s : Str) : splitSlash ('/' :: s) = [] :: splitSlash s := by
  show splitAux '/' ('/' :: s) [[]] = [] :: splitAux '/' s [[]]
  rw [splitAux]
  cases hx : splitAux '/' s [[]] with
  | nil => exact absurd hx (splitAux_ne_nil '/' s [] [])
  | cons a b => simp [splitStep]

theorem splitSlash_joinParts (ps : List Str) (hne : ps ≠ [])
    (hwf : ∀ x ∈ ps, x ≠ [] ∧ ('/' : Char) ∉ x) : splitSlash (joinParts ps) = ps := by
  induction ps with
  | nil => exact absurd rfl hne
  | cons p rest ih =>
    cases rest with
    | nil =>
      show splitAux '/' (joinParts [p]) [[]] = [p]
      rw [joinParts]
      rw [splitAux_no_sep '/' p []
        (fun c hc => fun hcs => (hwf p (by simp)).2 (hcs ▸ hc))]
      simp
    | cons q qs =>
      rw [joinParts]
      have h1 : splitSlash (p ++ '/' :: joinParts (q :: qs))
          = splitAux '/' p (splitAux '/' ('/' :: joinParts (q :: qs)) [[]]) := by
        rw [splitSlash, splitOnC, splitAux_append]
      rw [h1]
      have h2 : splitAux '/' ('/' :: joinParts (q :: qs)) [[]]
          = [] :: splitSlash (joinParts (q :: qs)) := splitSlash_sep_cons _
      rw [h2, ih (by simp) (fun x hx => hwf x (by simp [hx])),
        splitAux_cons_tail '/' p [] (q :: qs),
        splitAux_no_sep '/' p [] (fun c hc => fun hcs => (hwf p (by simp)).2 (hcs ▸ hc))]
      simp

theorem leadSlashes_nil : leadSlashes [] = 0 := rfl

theorem leadSlashes_cons_slash (s : Str) : leadSlashes ('/' :: s) = leadSlashes s + 1 := by
  simp [leadSlashes, List.takeWhile, Nat.add_comm]

theorem leadSlashes_cons_other (c : Char) (s : Str) (hc : c ≠ '/') :
    leadSlashes (c :: s) = 0 := by
  simp [leadSlashes, List.takeWhile, hc]

theorem leadSlashes_append_indep (s : Str) (c : Char) (r r' : Str) (hc : c ≠ '/') :
    leadSlashes (s ++ c :: r) = leadSlashes (s ++ c :: r') := by
  induction s with
  | nil => simp [leadSlashes_cons_other c _ hc]
  | cons a as ih =>
    by_cases ha : a = '/'
    · subst ha
      simp only [List.cons_append, leadSlashes_cons_slash, ih]
    · simp [leadSlashes_cons_other a _ ha]

theorem rootOf_append_indep (s : Str) (c : Char) (r r' : Str) (hc : c ≠ '/') :
    rootOf (s ++ c :: r) = rootOf (s ++ c :: r') := by
  simp only [rootOf, leadSlashes_append_indep s c r r' hc]

theorem leadSlashes_joinParts_head (p : Str) (ps : List Str) (hp : p ≠ [])
    (hps : ('/' : Char) ∉ p) : leadSlashes (joinParts (p :: ps)) = 0 := by
  cases p with
  | nil => exact absurd rfl hp
  | cons c cr =>
    have hc : c ≠ '/' := fun hcc => hps (by simp [hcc])
    cases ps with
    | nil => simpa [joinParts] using leadSlashes_cons_other c cr hc
    | cons q qs =>
      rw [joinParts]
      simpa [List.cons_append] using leadSlashes_cons_other c _ hc

theorem parse_renderPath (root : Nat) (parts : List Str) (hroot : root ≤ 2)
    (hne : parts ≠ []) (hwf : ∀ x ∈ parts, x ≠ [] ∧ x ≠ ['.'] ∧ ('/' : Char) ∉ x) :
    rootOf (renderPath root parts) = root ∧ partsOf (renderPath root parts) = parts := by
  have hsplit : splitSlash (joinParts parts) = parts :=
    splitSlash_joinParts parts hne (fun x hx => ⟨(hwf x hx).1, (hwf x hx).2.2⟩)
  have hfilter : (splitSlash (joinParts parts)).filter keepPart = parts := by
    rw [hsplit]
    rw [List.filter_eq_self]
    intro a ha
    simp only [keepPart, Bool.and_eq_true, Bool.not_eq_true', List.isEmpty_eq_false,
      decide_eq_false_iff_not]
    constructor
    · simpa using (hwf a ha).1
    · simpa using (hwf a ha).2.1
  obtain ⟨p, ps, rfl⟩ : ∃ p ps, parts = p :: ps := by
    cases parts with
    | nil => exact absurd rfl hne
    | cons p ps => exact ⟨p, ps, rfl⟩
  have hlead : leadSlashes (joinParts (p :: ps)) = 0 :=
    leadSlashes_joinParts_head p ps (hwf p (by simp)).1 (hwf p (by simp)).2.2
  interval_cases root
  · constructor
    · simp [renderPath, rootOf, hlead]
    · simpa [renderPath, partsOf] using hfilter
  · have hrp : renderPath 1 (p :: ps) = '/' :: joinParts (p :: ps) := by
      simp [renderPath]
    constructor
    · simp [hrp, rootOf, leadSlashes_cons_slash, hlead]
    · simp [hrp, partsOf, splitSlash_sep_cons, keepPart, hfilter]
  · have hrp : renderPath 2 (p :: ps) = '/' :: '/' :: joinParts (p :: ps) := by
      simp [renderPath]
    constructor
    · simp [hrp, rootOf, leadSlashes_cons_slash, hlead]
    · simp [hrp, partsOf, splitSlash_sep_cons, keepPart, hfilter]

theorem rootOf_le_two (s : Str) : rootOf s ≤ 2 := by
  simp only [rootOf]
  split
  · exact le_refl 2
  · split <;> omega

/-! ## Properties of `stripName` -/

theorem takeWhile_append_of_all {p : Char → Bool} (l₁ : Str) (b : Char) (l₂ : Str)
    (h₁ : ∀ a ∈ l₁, p a = true) (hb : p b = false) :
    (l₁ ++ b :: l₂).takeWhile p = l₁ := by
  induction l₁ with
  | nil => simp [List.takeWhile_cons, hb]
  | cons a l ih =>
    rw [List.cons_append, List.takeWhile_cons, if_pos (h₁ a (by simp))]
    rw [ih (fun x hx => h₁ x (by simp [hx]))]

theorem stripName_no_dot (m : Str) (hm : ('.' : Char) ∉ m) : stripName m = m := by
  have htw : m.reverse.takeWhile (fun c => !(c = '.' : Bool)) = m.reverse := by
    rw [List.takeWhile_eq_self_iff]
    intro a ha
    simp only [Bool.not_eq_true', decide_eq_false_iff_not]
    exact fun hc => hm (hc ▸ List.mem_reverse.mp ha)
  simp only [stripName, htw, List.length_reverse]
  have : ¬(0 < m.length ∧ m.length < m.length - 1) := by omega
  rw [if_neg this]

theorem stripName_ext (c : Str) (ext : Str) (hc : c ≠ []) (hext : ext ≠ [])
    (hdot : ('.' : Char) ∉ ext) : stripName (c ++ '.' :: ext) = c := by
  have hrev : (c ++ '.' :: ext).reverse = ext.reverse ++ '.' :: c.reverse := by
    simp
  have htw : ((c ++ '.' :: ext).reverse.takeWhile (fun x => !(x = '.' : Bool)))
      = ext.reverse := by
    rw [hrev]
    exact takeWhile_append_of_all ext.reverse '.' c.reverse
      (fun a ha => by
        simp only [Bool.not_eq_true', decide_eq_false_iff_not]
        exact fun hx => hdot (hx ▸ List.mem_reverse.mp ha))
      (by simp)
  have hlen : (c ++ '.' :: ext).length = c.length + 1 + ext.length := by
    simp
    omega
  have hcond : 0 < ext.length ∧ ext.length < (c ++ '.' :: ext).length - 1 := by
    constructor
    · exact List.length_pos.mpr hext
    · rw [hlen]
      have := List.length_pos.mpr hc
      omega
  simp only [stripName, htw, List.length_reverse]
  rw [if_pos hcond, hlen]
  have harith : c.length + 1 + ext.length - 1 - ext.length = c.length := by omega
  rw [harith]
  exact List.take_left' rfl

theorem stripName_props (nm : Str) (h1 : nm ≠ []) (h2 : nm ≠ ['.'])
    (h3 : ('/' : Char) ∉ nm) (hdots : nm.count '.' ≤ 1) :
    stripName nm ≠ [] ∧ stripName nm ≠ ['.'] ∧ ('/' : Char) ∉ stripName nm
      ∧ stripName (stripName nm) = stripName nm := by
  by_cases hcond : 0 < (nm.reverse.takeWhile (fun c => !(c = '.' : Bool))).length
      ∧ (nm.reverse.takeWhile (fun c => !(c = '.' : Bool))).length < nm.length - 1
  · set t := nm.reverse.takeWhile (fun c => !(c = '.' : Bool)) with htdef
    set d := nm.reverse.dropWhile (fun c => !(c = '.' : Bool)) with hddef
    have hmeq : stripName nm = nm.take (nm.length - 1 - t.length) := by
      simp only [stripName]
      rw [if_pos hcond]
    have htd : t ++ d = nm.reverse :=
      List.takeWhile_append_dropWhile (fun c => !(c = '.' : Bool)) nm.reverse
    have hdne : d ≠ [] := by
      intro hdn
      rw [hdn, List.append_nil] at htd
      have hlt := hcond.2
      rw [htd, List.length_reverse] at hlt
      omega
    obtain ⟨d0, d', hd⟩ : ∃ d0 d', d = d0 :: d' := by
      cases hdd : d with
      | nil => exact absurd hdd hdne
      | cons a b => exact ⟨a, b, rfl⟩
    have hd0 : d0 = '.' := by
      have hh := List.head?_dropWhile_not (fun c => !(c = '.' : Bool)) nm.reverse
      rw [← hddef, hd] at hh
      simpa using hh
    subst hd0
    have hnm : nm = d'.reverse ++ '.' :: t.reverse := by
      have h5 : nm = (t ++ d).reverse := by rw [htd, List.reverse_reverse]
      rw [h5, hd]
      simp
    have hnodott : ('.' : Char) ∉ t.reverse := by
      intro hmem
      have := List.mem_takeWhile_imp (htdef ▸ List.mem_reverse.mp hmem)
      simp at this
    have hcountt : t.reverse.count '.' = 0 := List.count_eq_zero.mpr hnodott
    have hcountd : d'.reverse.count '.' = 0 := by
      have hsum := congrArg (List.count '.') hnm
      rw [List.count_append, List.count_cons_self, hcountt] at hsum
      omega
    have hnodotd : ('.' : Char) ∉ d'.reverse := List.count_eq_zero.mp hcountd
    have hlen : nm.length = d'.length + 1 + t.length := by
      have := congrArg List.length hnm
      simpa [Nat.add_comm, Nat.add_assoc, Nat.add_left_comm] using this
    have htake : stripName nm = d'.reverse := by
      rw [hmeq]
      have harith : nm.length - 1 - t.length = d'.length := by omega
      rw [harith]
      conv =>
        lhs
        rw [hnm]
      exact List.take_left' (by simp)
    rw [htake]
    refine ⟨?_, ?_, ?_, stripName_no_dot _ hnodotd⟩
    · have hlpos : 0 < d'.length := by
        have := hcond.2
        omega
      intro hh
      rw [← List.length_reverse d'] at hlpos
      rw [hh] at hlpos
      simp at hlpos
    · intro hh
      exact hnodotd (by rw [hh]; simp)
    · intro hh
      exact h3 (by rw [hnm]; exact List.mem_append_left _ hh)
  · have hmeq : stripName nm = nm := by
      simp only [stripName]
      rw [if_neg hcond]
    rw [hmeq]
    exact ⟨h1, h2, h3, hmeq⟩

/-! ## The normalization theorems of the specification -/

theorem noSuffix_reparse (p : Str) (nm : Str)
    (hparts : (partsOf p).getLast? = some nm)
    (hstrip : stripName (stripName nm) = stripName nm)
    (hm1 : stripName nm ≠ []) (hm2 : stripName nm ≠ ['.'])
    (hm3 : ('/' : Char) ∉ stripName nm) :
    (noSuffix p).bind noSuffix = noSuffix p := by
  have hq : noSuffix p
      = some (renderPath (rootOf p) ((partsOf p).dropLast ++ [stripName nm])) := by
    simp [noSuffix, hparts]
  have hwf : ∀ x ∈ (partsOf p).dropLast ++ [stripName nm],
      x ≠ [] ∧ x ≠ ['.'] ∧ ('/' : Char) ∉ x := by
    intro x hx
    rcases List.mem_append.mp hx with hx1 | hx2
    · have hxm : x ∈ partsOf p := List.dropLast_subset _ hx1
      exact ⟨(partsOf_keep p x hxm).1, (partsOf_keep p x hxm).2, partsOf_no_slash p x hxm⟩
    · have : x = stripName nm := by simpa using hx2
      subst this
      exact ⟨hm1, hm2, hm3⟩
  obtain ⟨hroot, hparts2⟩ := parse_renderPath (rootOf p)
    ((partsOf p).dropLast ++ [stripName nm]) (rootOf_le_two p) (by simp) hwf
  have hlast : (partsOf (renderPath (rootOf p) ((partsOf p).dropLast ++ [stripName nm]))).getLast?
      = some (stripName nm) := by
    rw [hparts2, List.getLast?_concat]
  have hdrop : (partsOf (renderPath (rootOf p) ((partsOf p).dropLast ++ [stripName nm]))).dropLast
      = (partsOf p).dropLast := by
    rw [hparts2, List.dropLast_concat]
  have hq2 : noSuffix (renderPath (rootOf p) ((partsOf p).dropLast ++ [stripName nm]))
      = some (renderPath (rootOf p) ((partsOf p).dropLast ++ [stripName nm])) := by
    simp only [noSuffix, hlast, hdrop, hroot, hstrip]
  rw [hq, Option.some_bind, hq2]

/-- C2 (counterexample): normalization is not idempotent on every string:
`_no_suffix` strips only the last extension, so `"a.b.c"` normalizes to
`"a.b"`, which a second application shortens further to `"a"`. -/
theorem c2_idempotence_counterexample :
    (noSuffix "a.b.c".toList).bind noSuffix ≠ noSuffix "a.b.c".toList := by decide

/-- C2 (amended): `normalize(normalize(p)) == normalize(p)` for every path
`p` whose final component holds at most one dot; a component with several
dots loses one extension per application, so full idempotence fails
(`ValueError` inputs propagate through both sides unchanged). -/
theorem c2_idempotence_amended (p : Str) (hdots : (pathName p).count '.' ≤ 1) :
    (noSuffix p).bind noSuffix = noSuffix p := by
  cases hparts : (partsOf p).getLast? with
  | none =>
    have h0 : noSuffix p = none := by simp [noSuffix, hparts]
    rw [h0]
    rfl
  | some nm =>
    have hmem : nm ∈ partsOf p := List.mem_of_getLast?_eq_some hparts
    have hpn : pathName p = nm := by
      simp [pathName, List.getLastD_eq_getLast?, hparts]
    rw [hpn] at hdots
    obtain ⟨hnm1, hnm2⟩ := partsOf_keep p nm hmem
    have hnm3 := partsOf_no_slash p nm hmem
    obtain ⟨hm1, hm2, hm3, hm4⟩ := stripName_props nm hnm1 hnm2 hnm3 hdots
    exact noSuffix_reparse p nm hparts hm4 hm1 hm2 hm3

/-- C2 (witness): the amended idempotence at the concrete path
`docs/intro.md`. -/
theorem c2_idempotence_witness :
    (pathName "docs/intro.md".toList).count '.' ≤ 1
      ∧ (noSuffix "docs/intro.md".toList).bind noSuffix = noSuffix "docs/intro.md".toList :=
  ⟨by decide, c2_idempotence_amended "docs/intro.md".toList (by decide)⟩

/-- C6 (counterexample): two paths that differ only by a leading path
separator do not normalize identically — the leading `/` is preserved. -/
theorem c6_suffix_invariance_counterexample :
    noSuffix "/intro.md".toList ≠ noSuffix "intro.md".toList := by decide

/-- C6 (amended): two paths that differ only by which recognized document
suffix (`.md` vs `.ipynb`) they carry normalize to the same key, provided
the shared stem's final component is non-empty; the leading-separator half
of the claim is dropped (see the counterexample). -/
theorem c6_suffix_invariance_amended (s : Str)
    (hlast : (splitSlash s).getLastD [] ≠ []) :
    noSuffix (s ++ ".md".toList) = noSuffix (s ++ ".ipynb".toList) := by
  have key : ∀ ext : Str, ext ≠ [] → ('.' : Char) ∉ ext → (∀ c ∈ ext, c ≠ '/') →
      noSuffix (s ++ '.' :: ext)
        = some (renderPath (rootOf (s ++ '.' :: ext))
            ((splitSlash s).dropLast.filter keepPart ++ [(splitSlash s).getLastD []])) := by
    intro ext hne hdot hslash
    set L := (splitSlash s).getLastD [] with hLdef
    have hsplit : splitSlash (s ++ '.' :: ext) = (splitSlash s).dropLast ++ [L ++ '.' :: ext] := by
      rw [hLdef]
      apply splitSlash_append_noslash
      intro c hc
      rcases List.mem_cons.mp hc with rfl | hc2
      · intro hcc
        exact absurd hcc (by decide)
      · exact hslash c hc2
    have hkeep : keepPart (L ++ '.' :: ext) = true := by
      have h2 : L ++ '.' :: ext ≠ ['.'] := by
        intro hh
        have hlen := congrArg List.length hh
        simp only [List.length_append, List.length_cons, List.length_nil] at hlen
        have hpos := List.length_pos.mpr hlast
        omega
      have h1 : (L ++ '.' :: ext).isEmpty = false :=
        List.isEmpty_eq_false.mpr (by simp)
      simp only [keepPart, Bool.and_eq_true, Bool.not_eq_true']
      exact ⟨h1, decide_eq_false h2⟩
    have hpartsOf : partsOf (s ++ '.' :: ext)
        = (splitSlash s).dropLast.filter keepPart ++ [L ++ '.' :: ext] := by
      simp only [partsOf, hsplit, List.filter_append]
      simp [hkeep]
    have hstrip : stripName (L ++ '.' :: ext) = L := stripName_ext _ ext hlast hne hdot
    simp only [noSuffix, hpartsOf, List.getLast?_concat, List.dropLast_concat, hstrip]
  show noSuffix (s ++ '.' :: "md".toList) = noSuffix (s ++ '.' :: "ipynb".toList)
  rw [key "md".toList (by decide) (by decide) (by decide)]
  rw [key "ipynb".toList (by decide) (by decide) (by decide)]
  rw [rootOf_append_indep s '.' "md".toList "ipynb".toList (by decide)]

/-- C6 (witness): the amended suffix-invariance at the concrete stem
`docs/intro`. -/
theorem c6_suffix_invariance_witness :
    (splitSlash "docs/intro".toList).getLastD [] ≠ []
      ∧ noSuffix ("docs/intro".toList ++ ".md".toList)
          = noSuffix ("docs/intro".toList ++ ".ipynb".toList) :=
  ⟨by decide, c6_suffix_invariance_amended "docs/intro".toList (by decide)⟩

/-! ## Properties of `find_name` -/

mutual

theorem checkPage_eq_find (p : Page) (key : Str)
    (hok : (pageNodes p).all pageKeyOK = true) :
    checkPage p key = .ok ((pageNodes p).find? (keyMatch key)) := by
  cases p with
  | mk pa u hh secs =>
    rw [pageNodes, List.all_cons, Bool.and_eq_true] at hok
    obtain ⟨hok1, hok2⟩ := hok
    show checkPage (Page.mk pa u hh secs) key
        = .ok ((Page.mk pa u hh secs :: allNodesL secs).find? (keyMatch key))
    rw [checkPage]
    cases pa with
    | none =>
      rw [List.find?_cons_of_neg _ (by simp [keyMatch, pageKey, Page.path])]
      simp only [noSuffixGet]
      rw [if_neg (by simp)]
      exact findNameE_eq_find secs key hok2
    | some s =>
      have hs : (noSuffix s).isSome = true := by
        simpa [pageKeyOK, Page.path] using hok1
      obtain ⟨r, hr⟩ := Option.isSome_iff_exists.mp hs
      simp only [noSuffixGet, hr]
      by_cases hrk : r = key
      · subst hrk
        rw [if_pos rfl]
        rw [List.find?_cons_of_pos _ (by simp [keyMatch, pageKey, Page.path, hr])]
      · rw [if_neg (by simpa using hrk)]
        rw [List.find?_cons_of_neg _ (by simp [keyMatch, pageKey, Page.path, hr, hrk])]
        exact findNameE_eq_find secs key hok2

theorem findNameE_eq_find (pages : List Page) (key : Str)
    (hok : pathsNormalize pages = true) :
    findNameE pages key = .ok ((allNodesL pages).find? (keyMatch key)) := by
  cases pages with
  | nil => rfl
  | cons p rest =>
    rw [pathsNormalize, allNodesL, List.all_append, Bool.and_eq_true] at hok
    obtain ⟨hok1, hok2⟩ := hok
    rw [findNameE, allNodesL, List.find?_append]
    rw [checkPage_eq_find p key hok1]
    cases hfind : (pageNodes p).find? (keyMatch key) with
    | some q => simp
    | none =>
      simp only [Option.none_or]
      exact findNameE_eq_find rest key (by rwa [pathsNormalize])

end

theorem find?_eq_none_of_not_mem_keys (pages : List Page) (key : Str)
    (hmem : key ∉ normalizedKeys pages) :
    (allNodesL pages).find? (keyMatch key) = none := by
  rw [List.find?_eq_none]
  intro x hx
  simp only [keyMatch, decide_eq_true_eq]
  intro hkx
  exact hmem (by rw [normalizedKeys]; exact List.mem_filterMap.mpr ⟨x, hx, hkx⟩)

theorem find?_unique_key (l : List Page) (key : Str) (n : Page)
    (hnodup : (l.filterMap pageKey).Nodup) (hn : n ∈ l) (hkey : pageKey n = some key) :
    l.find? (keyMatch key) = some n := by
  induction l with
  | nil => cases hn
  | cons x t ih =>
    by_cases hx : keyMatch key x = true
    · rw [List.find?_cons_of_pos _ hx]
      have hkx : pageKey x = some key := by
        simpa [keyMatch] using hx
      rcases List.mem_cons.mp hn with rfl | hnt
      · rfl
      · exfalso
        have h1 : key ∈ t.filterMap pageKey := List.mem_filterMap.mpr ⟨n, hnt, hkey⟩
        rw [List.filterMap_cons, hkx] at hnodup
        exact (List.nodup_cons.mp hnodup).1 h1
    · rw [List.find?_cons_of_neg _ hx]
      have hxn : n ≠ x := by
        intro h
        subst h
        exact hx (by simp [keyMatch, hkey])
      have hnt : n ∈ t := by
        rcases List.mem_cons.mp hn with h | h
        · exact absurd h hxn
        · exact h
      have htail : (t.filterMap pageKey).Nodup := by
        rw [List.filterMap_cons] at hnodup
        cases hpk : pageKey x with
        | none => rwa [hpk] at hnodup
        | some b =>
          rw [hpk] at hnodup
          exact (List.nodup_cons.mp hnodup).2
      exact ih htail hnt

theorem isPrefixOf_append_self (l y : Str) : l.isPrefixOf (l ++ y) = true := by
  induction l with
  | nil => simp [List.isPrefixOf]
  | cons c cs ih => simp [List.isPrefixOf, ih]

theorem containsSub_nil_pat (z : Str) : containsSub [] z = true := by
  cases z with
  | nil => rfl
  | cons c r => simp [containsSub, List.isPrefixOf]

theorem containsSub_append_left (pat : Str) (x y : Str)
    (h : containsSub pat y = true) : containsSub pat (x ++ y) = true := by
  induction x with
  | nil => simpa using h
  | cons c cs ih =>
    rw [List.cons_append, containsSub, Bool.or_eq_true]
    exact Or.inr ih

theorem containsSub_self_append (pat y : Str) : containsSub pat (pat ++ y) = true := by
  cases pat with
  | nil => exact containsSub_nil_pat y
  | cons p ps =>
    rw [List.cons_append, containsSub, Bool.or_eq_true]
    left
    rw [← List.cons_append]
    exact isPrefixOf_append_self (p :: ps) y

/-- C3 (counterexample): `find` compares each node's normalized path with
the raw key, so for the one-node tree with path `intro.md` — whose paths
are trivially unique — `find(T, n.path)` is `NotFound` rather than `n`. -/
theorem c3_find_counterexample :
    findNameE [Page.mk (some "intro.md".toList) none none []] "intro.md".toList = .ok none
      ∧ findNameE [Page.mk (some "intro.md".toList) none none []] "intro.md".toList
          ≠ .ok (some (Page.mk (some "intro.md".toList) none none [])) := by decide

/-- C3 (amended): `find_name` visits nodes in pre-order, left to right,
returning the first node whose normalized path equals the key; and in any
tree whose nodes' paths all normalize and whose normalized paths are
unique, looking a node `n` up by its normalized path returns exactly `n`. -/
theorem c3_find_amended :
    (∀ pages key, pathsNormalize pages = true →
        findNameE pages key = .ok ((allNodesL pages).find? (keyMatch key)))
      ∧ (∀ pages n key, pathsNormalize pages = true → (normalizedKeys pages).Nodup →
          n ∈ allNodesL pages → pageKey n = some key →
          findNameE pages key = .ok (some n)) := by
  refine ⟨findNameE_eq_find, ?_⟩
  intro pages n key h1 h2 h3 h4
  rw [findNameE_eq_find pages key h1]
  rw [find?_unique_key (allNodesL pages) key n (by rwa [normalizedKeys] at h2) h3 h4]

/-- C3 (witness): looking up the nested node of `c3Pages` by its
normalized path returns exactly that node. -/
theorem c3_find_witness :
    pathsNormalize c3Pages = true ∧ (normalizedKeys c3Pages).Nodup
      ∧ c3Node ∈ allNodesL c3Pages ∧ pageKey c3Node = some "ch1/a".toList
      ∧ findNameE c3Pages "ch1/a".toList = .ok (some c3Node) :=
  ⟨by decide, by decide, by decide, by decide,
    c3_find_amended.2 c3Pages c3Node "ch1/a".toList (by decide) (by decide)
      (by decide) (by decide)⟩

/-- C7: `find_name` returns `None` — not an exception — for any key absent
from the tree's normalized paths (provided every declared path normalizes,
as `_no_suffix` raises on a pathological empty name); and the per-page
hook turns that miss for a rendered document into the fatal error of
toc.py line 47, whose message names the offending path and points at the
`_toc.yml` manifest. -/
theorem c7_lookup_miss_correct :
    (∀ pages key, pathsNormalize pages = true → key ∉ normalizedKeys pages →
        findNameE pages key = .ok none)
      ∧ (∀ toc path key, noSuffix path = some key → pathsNormalize [toc] = true →
          key ∉ normalizedKeys [toc] →
          add_toctree_lookup toc path = .error (tocNotFoundMsg path)
            ∧ containsSub path (tocNotFoundMsg path) = true
            ∧ containsSub "_toc.yml".toList (tocNotFoundMsg path) = true) := by
  have part1 : ∀ pages key, pathsNormalize pages = true → key ∉ normalizedKeys pages →
      findNameE pages key = .ok none := by
    intro pages key h1 h2
    rw [findNameE_eq_find pages key h1, find?_eq_none_of_not_mem_keys pages key h2]
  refine ⟨part1, ?_⟩
  intro toc path key hns h1 h2
  refine ⟨?_, ?_, ?_⟩
  · simp only [add_toctree_lookup, hns]
    rw [part1 [toc] key h1 h2]
  · rw [tocNotFoundMsg, List.append_assoc]
    exact containsSub_append_left _ _ _ (containsSub_self_append path _)
  · exact containsSub_append_left _ _ _ (by decide)

/-- C7 (witness): the miss behavior at a one-node tree and the document
path `other.md`. -/
theorem c7_lookup_miss_witness :
    noSuffix "other.md".toList = some "other".toList
      ∧ pathsNormalize [Page.mk (some "index".toList) none none []] = true
      ∧ "other".toList ∉ normalizedKeys [Page.mk (some "index".toList) none none []]
      ∧ (add_toctree_lookup (Page.mk (some "index".toList) none none []) "other.md".toList
            = .error (tocNotFoundMsg "other.md".toList)
          ∧ containsSub "other.md".toList (tocNotFoundMsg "other.md".toList) = true
          ∧ containsSub "_toc.yml".toList (tocNotFoundMsg "other.md".toList) = true) :=
  ⟨by decide, by decide, by decide,
    c7_lookup_miss_correct.2 (Page.mk (some "index".toList) none none [])
      "other.md".toList "other".toList (by decide) (by decide) (by decide)⟩

/-! ## Properties of `mapExcept` and of the generated record stream -/

theorem mapExcept_ok_length (f : α → Except ε β) (l : List α) (ys : List β)
    (h : mapExcept f l = .ok ys) : ys.length = l.length := by
  induction l generalizing ys with
  | nil =>
    simp only [mapExcept] at h
    cases h
    rfl
  | cons x xs ih =>
    cases hf : f x with
    | error e =>
      simp only [mapExcept, hf] at h
      exact Except.noConfusion h
    | ok y =>
      cases hm : mapExcept f xs with
      | error e =>
        simp only [mapExcept, hf, hm] at h
        exact Except.noConfusion h
      | ok ys' =>
        simp only [mapExcept, hf, hm] at h
        cases h
        simp [ih ys' hm]

theorem mapExcept_ok_mem (f : α → Except ε β) (l : List α) (ys : List β)
    (h : mapExcept f l = .ok ys) : ∀ y ∈ ys, ∃ x, x ∈ l ∧ f x = .ok y := by
  induction l generalizing ys with
  | nil =>
    simp only [mapExcept] at h
    cases h
    intro y hy
    cases hy
  | cons x xs ih =>
    cases hf : f x with
    | error e =>
      simp only [mapExcept, hf] at h
      exact Except.noConfusion h
    | ok y =>
      cases hm : mapExcept f xs with
      | error e =>
        simp only [mapExcept, hf, hm] at h
        exact Except.noConfusion h
      | ok ys' =>
        simp only [mapExcept, hf, hm] at h
        cases h
        intro z hz
        rcases List.mem_cons.mp hz with rfl | hz2
        · exact ⟨x, by simp, hf⟩
        · obtain ⟨x', hx1, hx2⟩ := ih ys' hm z hz2
          exact ⟨x', by simp [hx1], hx2⟩

theorem mapExcept_ok_of_forall (f : α → Except ε β) (l : List α)
    (h : ∀ x ∈ l, ∃ y, f x = .ok y) : ∃ ys, mapExcept f l = .ok ys := by
  induction l with
  | nil => exact ⟨[], rfl⟩
  | cons x xs ih =>
    obtain ⟨y, hy⟩ := h x (by simp)
    obtain ⟨ys, hys⟩ := ih (fun z hz => h z (by simp [hz]))
    exact ⟨y :: ys, by simp only [mapExcept, hy, hys]⟩

theorem mapExcept_map (f : α → Except ε β) (g : α → β) (l : List α)
    (h : ∀ x ∈ l, f x = .ok (g x)) : mapExcept f l = .ok (l.map g) := by
  induction l with
  | nil => rfl
  | cons x xs ih =>
    simp only [mapExcept, h x (by simp), ih (fun z hz => h z (by simp [hz])), List.map_cons]

theorem topRecord_shape (ps rel : List Str) (e : TocEntry)
    (h : topRecord ps rel = .ok e) : ∃ s, e = TocEntry.pathRec s := by
  cases hw : withSuffixEmptyParts (ps ++ rel) with
  | error er =>
    simp only [topRecord, hw] at h
    exact Except.noConfusion h
  | ok stripped =>
    simp only [topRecord, hw] at h
    cases h
    exact ⟨_, rfl⟩

theorem urlRecord_shape (ps rel : List Str) (e : TocEntry)
    (h : urlRecord ps rel = .ok e) : ∃ s, e = TocEntry.urlRec s := by
  cases hw : withSuffixEmptyParts (ps ++ rel) with
  | error er =>
    simp only [urlRecord, hw] at h
    exact Except.noConfusion h
  | ok stripped =>
    simp only [urlRecord, hw] at h
    cases h
    exact ⟨_, rfl⟩

theorem subdirBlock_shape (ps : List Str) (split : Char) (sub : FSTree) (l : List TocEntry)
    (h : subdirBlock ps split sub = .ok l) :
    ∀ e ∈ l, e = TocEntry.marker ∨ (∃ s, e = TocEntry.headerRec s)
      ∨ ∃ s, e = TocEntry.urlRec s := by
  by_cases hc : (listSupportedFiles sub (ps ++ [sub.name]) true).length = 0
  · simp only [subdirBlock, if_pos hc] at h
    cases h
    intro e he
    cases he
  · simp only [subdirBlock, if_neg hc] at h
    cases ht : filenameToTitle sub.name split with
    | error er =>
      rw [ht] at h
      exact Except.noConfusion h
    | ok title =>
      rw [ht] at h
      cases hm : mapExcept (urlRecord (ps ++ [sub.name]))
          (listSupportedFiles sub (ps ++ [sub.name]) true) with
      | error er =>
        rw [hm] at h
        exact Except.noConfusion h
      | ok urls =>
        rw [hm] at h
        cases h
        intro e he
        rcases List.mem_cons.mp he with rfl | he2
        · exact Or.inl rfl
        · rcases List.mem_cons.mp he2 with rfl | he3
          · exact Or.inr (Or.inl ⟨title, rfl⟩)
          · obtain ⟨rel, _, hrel⟩ := mapExcept_ok_mem _ _ _ hm e he3
            exact Or.inr (Or.inr (urlRecord_shape _ rel e hrel))

mutual

theorem checkPage_path_isSome (p : Page) (key : Str) (q : Page)
    (h : checkPage p key = .ok (some q)) : q.path.isSome = true := by
  cases p with
  | mk pa u hh secs =>
    cases hg : noSuffixGet pa with
    | error e =>
      simp only [checkPage, hg] at h
      exact Except.noConfusion h
    | ok v =>
      simp only [checkPage, hg] at h
      by_cases hv : v = some key
      · rw [if_pos hv] at h
        cases h
        cases pa with
        | none =>
          simp only [noSuffixGet] at hg
          cases hg
          cases hv
        | some s => simp [Page.path]
      · rw [if_neg hv] at h
        exact findNameE_path_isSome secs key q h

theorem findNameE_path_isSome (pages : List Page) (key : Str) (q : Page)
    (h : findNameE pages key = .ok (some q)) : q.path.isSome = true := by
  cases pages with
  | nil =>
    simp only [findNameE] at h
    exact Option.noConfusion (Except.ok.inj h)
  | cons p rest =>
    cases hc : checkPage p key with
    | error e =>
      simp only [findNameE, hc] at h
      exact Except.noConfusion h
    | ok v =>
      simp only [findNameE, hc] at h
      cases v with
      | some q' =>
        cases h
        exact checkPage_path_isSome p key q hc
      | none => exact findNameE_path_isSome rest key q h

end

/-- C10: every record `build_toc` emits for a top-level file carries the
`path` key, every record emitted for a subdirectory is a marker, a header,
or a `url` record; and `find_name` only ever returns a node that has a
`path`, so the `url`-only records of an auto-generated manifest are never
matchable. -/
theorem c10_path_url_records_correct :
    (∀ t parts split entries, buildTocEntries t parts split = .ok entries →
        ∃ top sub, entries = top ++ sub
          ∧ top.length = (listSupportedFiles t parts false).length
          ∧ (∀ e ∈ top, ∃ s, e = TocEntry.pathRec s)
          ∧ (∀ e ∈ sub, e = TocEntry.marker ∨ (∃ s, e = TocEntry.headerRec s)
              ∨ ∃ s, e = TocEntry.urlRec s))
      ∧ (∀ pages key q, findNameE pages key = .ok (some q) → q.path.isSome = true) := by
  constructor
  · intro t parts split entries h
    cases hm1 : mapExcept (topRecord parts) (listSupportedFiles t parts false) with
    | error e =>
      simp only [buildTocEntries, hm1] at h
      exact Except.noConfusion h
    | ok top =>
      cases hm2 : mapExcept (subdirBlock parts split) (sortedSubdirs t) with
      | error e =>
        simp only [buildTocEntries, hm1, hm2] at h
        exact Except.noConfusion h
      | ok subLists =>
        simp only [buildTocEntries, hm1, hm2] at h
        cases h
        refine ⟨top, subLists.flatten, rfl, mapExcept_ok_length _ _ _ hm1, ?_, ?_⟩
        · intro e he
          obtain ⟨rel, _, hrel⟩ := mapExcept_ok_mem _ _ _ hm1 e he
          exact topRecord_shape parts rel e hrel
        · intro e he
          obtain ⟨l, hl, hel⟩ := List.mem_flatten.mp he
          obtain ⟨sub, _, hsub⟩ := mapExcept_ok_mem _ _ _ hm2 l hl
          exact subdirBlock_shape parts split sub l hsub e hel
  · exact findNameE_path_isSome

/-- C10 (witness): the record split at a one-file, one-subdirectory
content tree, and the path-only matchability at a one-node manifest. -/
theorem c10_path_url_records_witness :
    buildTocEntries (FSTree.dir "c".toList [FSTree.file "x.md".toList]) ["c".toList] '_'
        = .ok [TocEntry.pathRec "x".toList]
      ∧ (∃ top sub, [TocEntry.pathRec "x".toList] = top ++ sub
          ∧ top.length = (listSupportedFiles (FSTree.dir "c".toList [FSTree.file "x.md".toList])
              ["c".toList] false).length
          ∧ (∀ e ∈ top, ∃ s, e = TocEntry.pathRec s)
          ∧ (∀ e ∈ sub, e = TocEntry.marker ∨ (∃ s, e = TocEntry.headerRec s)
              ∨ ∃ s, e = TocEntry.urlRec s))
      ∧ findNameE [Page.mk (some "x.md".toList) none none []] "x".toList
          = .ok (some (Page.mk (some "x.md".toList) none none []))
      ∧ (Page.mk (some "x.md".toList) none none []).path.isSome = true :=
  ⟨by decide,
    c10_path_url_records_correct.1 (FSTree.dir "c".toList [FSTree.file "x.md".toList])
      ["c".toList] '_' [TocEntry.pathRec "x".toList] (by decide),
    by decide,
    c10_path_url_records_correct.2 [Page.mk (some "x.md".toList) none none []]
      "x".toList (Page.mk (some "x.md".toList) none none []) (by decide)⟩

/-- C4: for a manifest that parsed as a non-empty list of records, record 0
becomes the root; when further records follow they become the root's
`sections`, discarding any the first record declared; and `master_doc` is
the suffix-stripped path of the root record.  The one-record case keeps
the root's own sections. -/
theorem c4_update_indexname_correct (pa u hh : Option Str) (secs rest : List Page)
    (p m : Str) (hpa : pa = some p) (hm : noSuffix p = some m) :
    (rest ≠ [] → update_indexname (Page.mk pa u hh secs :: rest)
        = .ok (Page.mk pa u hh rest, m))
      ∧ update_indexname [Page.mk pa u hh secs] = .ok (Page.mk pa u hh secs, m) := by
  subst hpa
  constructor
  · intro hne
    have hlen : 0 < rest.length := List.length_pos.mpr hne
    simp only [update_indexname, if_pos hlen, hm]
  · simp only [update_indexname]
    rw [if_neg (by simp)]
    simp [hm]

/-- C4 (witness): loading a two-record manifest whose root already
declared sections overwrites them with the remaining records, and the
one-record manifest keeps them. -/
theorem c4_update_indexname_witness :
    ([Page.mk (some "ch1".toList) none none []] : List Page) ≠ []
      ∧ noSuffix "index.md".toList = some "index".toList
      ∧ update_indexname
          [Page.mk (some "index.md".toList) none none [Page.mk (some "old".toList) none none []],
           Page.mk (some "ch1".toList) none none []]
          = .ok (Page.mk (some "index.md".toList) none none
              [Page.mk (some "ch1".toList) none none []], "index".toList)
      ∧ update_indexname
          [Page.mk (some "index.md".toList) none none [Page.mk (some "old".toList) none none []]]
          = .ok (Page.mk (some "index.md".toList) none none
              [Page.mk (some "old".toList) none none []], "index".toList) :=
  ⟨by decide, by decide,
    (c4_update_indexname_correct (some "index.md".toList) none none
      [Page.mk (some "old".toList) none none []] [Page.mk (some "ch1".toList) none none []]
      "index.md".toList "index".toList rfl (by decide)).1 (by decide),
    (c4_update_indexname_correct (some "index.md".toList) none none
      [Page.mk (some "old".toList) none none []] [Page.mk (some "ch1".toList) none none []]
      "index.md".toList "index".toList rfl (by decide)).2⟩

/-- C9: the injection dispatches purely on the document's suffix: `.md`
appends the directive (plus a newline) to the textual source, `.ipynb`
parses the notebook, appends a trailing markdown cell holding the
directive and re-serializes, and every other suffix fails with the
`ValueError` of toc.py line 99. -/
theorem c9_inject_dispatch_correct (path source toctree : Str) (cells : List Cell) :
    (pathSuffix path = ".md".toList →
        injectSource path source toctree = .ok (source ++ toctree ++ "\n".toList))
      ∧ (pathSuffix path = ".ipynb".toList → readsNb source = some cells →
          injectSource path source toctree
            = .ok (writesNb (cells ++ [new_markdown_cell toctree])))
      ∧ (pathSuffix path ≠ ".md".toList → pathSuffix path ≠ ".ipynb".toList →
          injectSource path source toctree = .error unsupportedMsg) := by
  refine ⟨?_, ?_, ?_⟩
  · intro hmd
    simp only [injectSource, hmd]
    simp
  · intro hip hread
    simp only [injectSource, hip, hread]
    simp
  · intro h1 h2
    simp only [injectSource]
    rw [if_neg h1, if_neg h2]

/-- C9 (witness): the three dispatch branches at concrete documents. -/
theorem c9_inject_dispatch_witness :
    pathSuffix "a.md".toList = ".md".toList
      ∧ injectSource "a.md".toList "S".toList "T".toList
          = .ok ("S".toList ++ "T".toList ++ "\n".toList)
      ∧ pathSuffix "b.ipynb".toList = ".ipynb".toList
      ∧ readsNb (writesNb [Cell.code "x".toList]) = some [Cell.code "x".toList]
      ∧ injectSource "b.ipynb".toList (writesNb [Cell.code "x".toList]) "T".toList
          = .ok (writesNb ([Cell.code "x".toList] ++ [new_markdown_cell "T".toList]))
      ∧ pathSuffix "c.rst".toList ≠ ".md".toList
      ∧ pathSuffix "c.rst".toList ≠ ".ipynb".toList
      ∧ injectSource "c.rst".toList "S".toList "T".toList = .error unsupportedMsg :=
  ⟨by decide,
    (c9_inject_dispatch_correct "a.md".toList "S".toList "T".toList []).1 (by decide),
    by decide, by decide,
    (c9_inject_dispatch_correct "b.ipynb".toList (writesNb [Cell.code "x".toList])
      "T".toList [Cell.code "x".toList]).2.1 (by decide) (by decide),
    by decide, by decide,
    (c9_inject_dispatch_correct "c.rst".toList "S".toList "T".toList []).2.2
      (by decide) (by decide)⟩

/-! ## Success of `build_toc` on existing directories -/

theorem globMatch_rel_ne_nil (suffix : Str) (t : FSTree) :
    ∀ rel ∈ globMatch suffix t, rel ≠ [] := by
  intro rel hrel
  simp only [globMatch, List.mem_map] at hrel
  obtain ⟨c, _, rfl⟩ := hrel
  simp

theorem rglobMatch_rel_ne_nil (suffix : Str) (t : FSTree) :
    ∀ rel ∈ rglobMatch suffix t, rel ≠ [] := by
  intro rel hrel
  simp only [rglobMatch, List.mem_flatMap, List.mem_map, List.mem_filter] at hrel
  obtain ⟨pc, _, c, _, rfl⟩ := hrel
  simp

theorem listSupportedFiles_rel_ne_nil (t : FSTree) (tParts : List Str) (rec : Bool) :
    ∀ rel ∈ listSupportedFiles t tParts rec, rel ≠ [] := by
  intro rel hrel
  simp only [listSupportedFiles, List.mem_flatMap] at hrel
  obtain ⟨suf, _, hmem⟩ := hrel
  have hmem2 := List.mem_of_mem_filter hmem
  cases rec with
  | false =>
    simp only [Bool.false_eq_true, if_false] at hmem2
    exact globMatch_rel_ne_nil suf t rel hmem2
  | true =>
    simp only [if_true] at hmem2
    exact rglobMatch_rel_ne_nil suf t rel hmem2

theorem withSuffixEmptyParts_ok (parts rel : List Str) (hne : rel ≠ []) :
    ∃ ys, withSuffixEmptyParts (parts ++ rel) = .ok ys := by
  have h1 : parts ++ rel ≠ [] := by simp [hne]
  have h2 : (parts ++ rel).getLast? = some ((parts ++ rel).getLast h1) :=
    List.getLast?_eq_getLast _ h1
  exact ⟨_, by rw [withSuffixEmptyParts, h2]⟩

theorem topRecord_ok (ps rel : List Str) (hne : rel ≠ []) :
    ∃ e, topRecord ps rel = .ok e := by
  obtain ⟨ys, hys⟩ := withSuffixEmptyParts_ok ps rel hne
  exact ⟨_, by rw [topRecord, hys]⟩

theorem urlRecord_ok (ps rel : List Str) (hne : rel ≠ []) :
    ∃ e, urlRecord ps rel = .ok e := by
  obtain ⟨ys, hys⟩ := withSuffixEmptyParts_ok ps rel hne
  exact ⟨_, by rw [urlRecord, hys]⟩

theorem partsOf_of_wfName (n : Str) (h : wfName n = true) : partsOf n = [n] := by
  simp only [wfName, Bool.and_eq_true, Bool.not_eq_true', List.isEmpty_eq_false,
    decide_eq_false_iff_not] at h
  obtain ⟨⟨h1, h2⟩, h3⟩ := h
  have hnos : ∀ c ∈ n, c ≠ '/' := by
    intro c hc hcc
    subst hcc
    exact absurd (List.elem_iff.mpr hc) (by simpa [List.contains] using h3)
  have hss : splitSlash n = [n] := by
    show splitAux '/' n [[]] = [n]
    rw [splitAux_no_sep '/' n [] hnos]
    simp
  rw [partsOf, hss]
  have hk : keepPart n = true := by
    simp only [keepPart, Bool.and_eq_true, Bool.not_eq_true', List.isEmpty_eq_false,
      decide_eq_false_iff_not]
    exact ⟨h1, h2⟩
  simp [hk]

theorem filenameToTitle_ok (n : Str) (split : Char) (h : wfName n = true) :
    ∃ ttl, filenameToTitle n split = .ok ttl := by
  have hp := partsOf_of_wfName n h
  exact ⟨_, by rw [filenameToTitle, hp]; rfl⟩

theorem mem_insertSorted (le : α → α → Bool) (x a : α) (l : List α) :
    a ∈ insertSorted le x l ↔ a = x ∨ a ∈ l := by
  induction l with
  | nil => simp [insertSorted]
  | cons y ys ih =>
    rw [insertSorted]
    split
    · simp [List.mem_cons]
    · simp only [List.mem_cons, ih]
      tauto

theorem mem_sortStable (le : α → α → Bool) (a : α) (l : List α) :
    a ∈ sortStable le l ↔ a ∈ l := by
  induction l with
  | nil => simp [sortStable]
  | cons x xs ih =>
    rw [sortStable, mem_insertSorted, ih, List.mem_cons]

theorem subdirBlock_ok (ps : List Str) (split : Char) (sub : FSTree)
    (hwf : wfName sub.name = true) : ∃ l, subdirBlock ps split sub = .ok l := by
  by_cases hc : (listSupportedFiles sub (ps ++ [sub.name]) true).length = 0
  · exact ⟨[], by simp only [subdirBlock, if_pos hc]⟩
  · obtain ⟨ttl, httl⟩ := filenameToTitle_ok sub.name split hwf
    obtain ⟨urls, hurls⟩ := mapExcept_ok_of_forall (urlRecord (ps ++ [sub.name])) _
      (fun rel hrel => urlRecord_ok _ rel (listSupportedFiles_rel_ne_nil sub _ true rel hrel))
    exact ⟨_, by rw [subdirBlock]; rw [if_neg hc, httl, hurls]⟩

/-- C8: `build_toc` raises the invalid-content-directory error — and
returns nothing else — when the target is missing or not a directory; for
an existing directory (with real filesystem entry names) it returns
normally; and an empty directory yields exactly the serialized,
post-processed empty record list.  The function never writes: its result
is the manifest text, which the caller writes. -/
theorem c8_build_toc_errors_correct (contentParts : List Str) (split : Char)
    (nm : Str) (cs : List FSTree) :
    build_toc none contentParts split = .error (dirErrMsg contentParts)
      ∧ build_toc (some (FSTree.file nm)) contentParts split = .error (dirErrMsg contentParts)
      ∧ ((∀ c ∈ cs, c.isDirB = true → wfName c.name = true) →
          isOkE (build_toc (some (FSTree.dir nm cs)) contentParts split) = true)
      ∧ build_toc (some (FSTree.dir nm [])) contentParts split
          = .ok (List.intersperse '\n' (removeOcc SECTION_MARKER (yamlDump []))) := by
  refine ⟨rfl, rfl, ?_, rfl⟩
  intro hwf
  have hsubwf : ∀ sub ∈ sortedSubdirs (FSTree.dir nm cs),
      ∃ l, subdirBlock contentParts split sub = .ok l := by
    intro sub hsub
    have hmem : sub ∈ cs := by
      have h2 := (mem_sortStable _ sub _).mp hsub
      have h3 := List.mem_of_mem_filter h2
      simpa [FSTree.childrenOf] using h3
    have hdir : sub.isDirB = true := by
      have h2 := (mem_sortStable _ sub _).mp hsub
      have h4 := List.of_mem_filter h2
      simp only [Bool.and_eq_true] at h4
      exact h4.1
    exact subdirBlock_ok contentParts split sub (hwf sub hmem hdir)
  obtain ⟨top, htop⟩ := mapExcept_ok_of_forall (topRecord contentParts)
    (listSupportedFiles (FSTree.dir nm cs) contentParts false)
    (fun rel hrel => topRecord_ok _ rel
      (listSupportedFiles_rel_ne_nil (FSTree.dir nm cs) contentParts false rel hrel))
  obtain ⟨subs, hsubs⟩ := mapExcept_ok_of_forall (subdirBlock contentParts split)
    (sortedSubdirs (FSTree.dir nm cs)) hsubwf
  simp only [build_toc, buildTocEntries, htop, hsubs]
  rfl

/-- C8 (witness): the success branch at a directory with one file and one
subdirectory with a sane name. -/
theorem c8_build_toc_errors_witness :
    (∀ c ∈ [FSTree.file "x.md".toList, FSTree.dir "02 dd".toList []],
        c.isDirB = true → wfName c.name = true)
      ∧ isOkE (build_toc (some (FSTree.dir "r".toList
          [FSTree.file "x.md".toList, FSTree.dir "02 dd".toList []]))
          ["r".toList] '_') = true :=
  ⟨by decide,
    (c8_build_toc_errors_correct ["r".toList] '_' "r".toList
      [FSTree.file "x.md".toList, FSTree.dir "02 dd".toList []]).2.2.1 (by decide)⟩

/-! ## Enumeration order of `build_toc` -/

theorem leStr_total (a b : Str) : leStr a b = true ∨ leStr b a = true := by
  induction a generalizing b with
  | nil => exact Or.inl rfl
  | cons x xs ih =>
    cases b with
    | nil => exact Or.inr rfl
    | cons y ys =>
      rcases lt_trichotomy x y with h | h | h
      · exact Or.inl (by simp [leStr, h])
      · subst h
        rcases ih ys with h2 | h2
        · exact Or.inl (by simp [leStr, lt_irrefl, h2])
        · exact Or.inr (by simp [leStr, lt_irrefl, h2])
      · exact Or.inr (by simp [leStr, h])

theorem leStr_trans (a b c : Str) (h1 : leStr a b = true) (h2 : leStr b c = true) :
    leStr a c = true := by
  induction a generalizing b c with
  | nil => rfl
  | cons x xs ih =>
    cases b with
    | nil => exact absurd h1 (by simp [leStr])
    | cons y ys =>
      cases c with
      | nil => exact absurd h2 (by simp [leStr])
      | cons z zs =>
        by_cases hxy : x < y
        · by_cases hyz : y < z
          · simp [leStr, lt_trans hxy hyz]
          · by_cases hzy : z < y
            · simp [leStr, hyz, hzy] at h2
            · have hyzeq : y = z := le_antisymm (le_of_not_lt hzy) (le_of_not_lt hyz)
              subst hyzeq
              simp [leStr, hxy]
        · by_cases hyx : y < x
          · simp [leStr, hxy, hyx] at h1
          · have hxyeq : x = y := le_antisymm (le_of_not_lt hyx) (le_of_not_lt hxy)
            subst hxyeq
            simp only [leStr, lt_irrefl, if_false] at h1
            by_cases hxz : x < z
            · simp [leStr, hxz]
            · by_cases hzx : z < x
              · simp [leStr, hxz, hzx] at h2
              · have hxzeq : x = z := le_antisymm (le_of_not_lt hzx) (le_of_not_lt hxz)
                subst hxzeq
                simp only [leStr, lt_irrefl, if_false] at h2 ⊢
                exact ih ys zs h1 h2

theorem pairwise_insertSorted (le : α → α → Bool)
    (htot : ∀ a b, le a b = true ∨ le b a = true)
    (htr : ∀ a b c, le a b = true → le b c = true → le a c = true)
    (x : α) (l : List α) (hl : l.Pairwise (fun u v => le u v = true)) :
    (insertSorted le x l).Pairwise (fun u v => le u v = true) := by
  induction l with
  | nil => simp [insertSorted]
  | cons y ys ih =>
    rw [insertSorted]
    rcases List.pairwise_cons.mp hl with ⟨hy, hys⟩
    by_cases hxy : le x y = true
    · rw [if_pos hxy]
      refine List.pairwise_cons.mpr ⟨?_, hl⟩
      intro b hb
      rcases List.mem_cons.mp hb with rfl | hb2
      · exact hxy
      · exact htr x y b hxy (hy b hb2)
    · rw [if_neg hxy]
      have hyx : le y x = true := (htot x y).resolve_left hxy
      refine List.pairwise_cons.mpr ⟨?_, ih hys⟩
      intro b hb
      rcases (mem_insertSorted le x b ys).mp hb with rfl | hb2
      · exact hyx
      · exact hy b hb2

theorem pairwise_sortStable (le : α → α → Bool)
    (htot : ∀ a b, le a b = true ∨ le b a = true)
    (htr : ∀ a b c, le a b = true → le b c = true → le a c = true)
    (l : List α) : (sortStable le l).Pairwise (fun u v => le u v = true) := by
  induction l with
  | nil => simp [sortStable]
  | cons x xs ih => exact pairwise_insertSorted le htot htr x _ ih

theorem topRecord_single (ps : List Str) (n : Str) :
    topRecord ps [n] = .ok (TocEntry.pathRec (renderParts ((ps ++ [stripName n]).drop 1))) := by
  simp only [topRecord, withSuffixEmptyParts, List.getLast?_concat, List.dropLast_concat]

/-- C5 (counterexample): with a content directory whose sorted listing is
`a.md, b.ipynb`, the emitted records are `b` before `a` — files are
grouped by suffix (`.ipynb` globbed before `.md`), not sorted by name. -/
theorem c5_ordering_counterexample :
    buildTocEntries fsExampleC5 ["root".toList] '_'
        = .ok [TocEntry.pathRec "b".toList, TocEntry.pathRec "a".toList]
      ∧ buildTocEntries fsExampleC5 ["root".toList] '_'
          ≠ .ok [TocEntry.pathRec "a".toList, TocEntry.pathRec "b".toList] := by decide

/-- C5 (amended): `build_toc` does not sort files: for every directory of
`.md`-only files the emitted records follow the filesystem enumeration
order unchanged (so names sort the book only if the filesystem enumerates
them sorted), files are grouped by suffix in the fixed
`SUPPORTED_FILE_SUFFIXES` order (see the counterexample), and only the
subdirectories are explicitly sorted, by name. -/
theorem c5_ordering_amended :
    (∀ nm parts split cs,
      (∀ c ∈ cs, (∃ n, c = FSTree.file n)
        ∧ ".md".toList.isSuffixOf c.name = true
        ∧ ".ipynb".toList.isSuffixOf c.name = false
        ∧ ".markdown".toList.isSuffixOf c.name = false
        ∧ ".Rmd".toList.isSuffixOf c.name = false
        ∧ ".py".toList.isSuffixOf c.name = false
        ∧ "#BREAK#".toList.isSuffixOf c.name = false
        ∧ ¬c.name = "LICENSE.md".toList
        ∧ containsSub "ipynb_checkpoints".toList (joinParts (parts ++ [c.name])) = false) →
      buildTocEntries (FSTree.dir nm cs) parts split
        = .ok (cs.map (fun c =>
            TocEntry.pathRec (renderParts ((parts ++ [stripName c.name]).drop 1)))))
      ∧ ∀ t, (sortedSubdirs t).Pairwise (fun a b => leStr a.name b.name = true) := by
  constructor
  · intro nm parts split cs hcs
    have hglobnil : ∀ suf : Str, (∀ c ∈ cs, suf.isSuffixOf c.name = false) →
        globMatch suf (FSTree.dir nm cs) = [] := by
      intro suf hsuf
      simp only [globMatch, FSTree.childrenOf]
      rw [List.filter_eq_nil_iff.mpr (fun c hc => by simp [hsuf c hc])]
      rfl
    have hglobmd : globMatch ".md".toList (FSTree.dir nm cs) = cs.map (fun c => [c.name]) := by
      simp only [globMatch, FSTree.childrenOf]
      rw [List.filter_eq_self.mpr (fun c hc => (hcs c hc).2.1)]
    have hpred : ∀ rel ∈ cs.map (fun c => [c.name]),
        (!(rel.getLastD [] = "LICENSE.md".toList : Bool)
          && !containsSub "ipynb_checkpoints".toList (joinParts (parts ++ rel))) = true := by
      intro rel hrel
      obtain ⟨c, hc, rfl⟩ := List.mem_map.mp hrel
      simp only [List.getLastD_cons, List.getLastD_nil, Bool.and_eq_true, Bool.not_eq_true']
      exact ⟨decide_eq_false (hcs c hc).2.2.2.2.2.2.2.1, (hcs c hc).2.2.2.2.2.2.2.2⟩
    have hlist : listSupportedFiles (FSTree.dir nm cs) parts false
        = cs.map (fun c => [c.name]) := by
      simp only [listSupportedFiles, SUPPORTED_FILE_SUFFIXES, List.flatMap_cons,
        List.flatMap_nil, Bool.false_eq_true, if_false]
      rw [hglobnil ".ipynb".toList (fun c hc => (hcs c hc).2.2.1), hglobmd,
        hglobnil ".markdown".toList (fun c hc => (hcs c hc).2.2.2.1),
        hglobnil ".Rmd".toList (fun c hc => (hcs c hc).2.2.2.2.1),
        hglobnil ".py".toList (fun c hc => (hcs c hc).2.2.2.2.2.1),
        hglobnil "#BREAK#".toList (fun c hc => (hcs c hc).2.2.2.2.2.2.1)]
      simp only [List.filter_nil, List.nil_append, List.append_nil]
      exact List.filter_eq_self.mpr hpred
    have hmap : mapExcept (topRecord parts) (cs.map (fun c => [c.name]))
        = .ok ((cs.map (fun c => [c.name])).map
            (fun rel => TocEntry.pathRec
              (renderParts ((parts ++ [stripName (rel.getLastD [])]).drop 1)))) := by
      apply mapExcept_map
      intro rel hrel
      obtain ⟨c, hc, rfl⟩ := List.mem_map.mp hrel
      simpa using topRecord_single parts c.name
    have hfilter : cs.filter
        (fun c => c.isDirB && !containsSub ".ipynb_checkpoints".toList c.name) = [] :=
      List.filter_eq_nil_iff.mpr (fun c hc => by
        obtain ⟨n, rfl⟩ := (hcs c hc).1
        simp [FSTree.isDirB])
    have hsubnil : sortedSubdirs (FSTree.dir nm cs) = [] := by
      simp only [sortedSubdirs, FSTree.childrenOf, hfilter]
      rfl
    simp only [buildTocEntries, hlist, hmap, hsubnil, mapExcept, List.flatten_nil,
      List.append_nil, List.map_map]
    rfl
  · intro t
    exact pairwise_sortStable (fun a b : FSTree => leStr a.name b.name)
      (fun a b => leStr_total a.name b.name)
      (fun a b c => leStr_trans a.name b.name c.name) _

set_option maxRecDepth 4000 in
/-- C5 (witness): a `.md`-only directory enumerated as `b.md, a.md` keeps
that order in the emitted records, and a directory of two subdirectories
is processed in sorted name order. -/
theorem c5_ordering_witness :
    (∀ c ∈ [FSTree.file "b.md".toList, FSTree.file "a.md".toList],
        (∃ n, c = FSTree.file n)
        ∧ ".md".toList.isSuffixOf c.name = true
        ∧ ".ipynb".toList.isSuffixOf c.name = false
        ∧ ".markdown".toList.isSuffixOf c.name = false
        ∧ ".Rmd".toList.isSuffixOf c.name = false
        ∧ ".py".toList.isSuffixOf c.name = false
        ∧ "#BREAK#".toList.isSuffixOf c.name = false
        ∧ ¬c.name = "LICENSE.md".toList
        ∧ containsSub "ipynb_checkpoints".toList
            (joinParts (["r".toList] ++ [c.name])) = false)
      ∧ buildTocEntries
          (FSTree.dir "r".toList [FSTree.file "b.md".toList, FSTree.file "a.md".toList])
          ["r".toList] '_'
          = .ok [TocEntry.pathRec "b".toList, TocEntry.pathRec "a".toList]
      ∧ (sortedSubdirs (FSTree.dir "r".toList
          [FSTree.dir "b".toList [], FSTree.dir "a".toList []])).Pairwise
          (fun a b => leStr a.name b.name = true) := by
  have hyp : ∀ c ∈ [FSTree.file "b.md".toList, FSTree.file "a.md".toList],
      (∃ n, c = FSTree.file n)
      ∧ ".md".toList.isSuffixOf c.name = true
      ∧ ".ipynb".toList.isSuffixOf c.name = false
      ∧ ".markdown".toList.isSuffixOf c.name = false
      ∧ ".Rmd".toList.isSuffixOf c.name = false
      ∧ ".py".toList.isSuffixOf c.name = false
      ∧ "#BREAK#".toList.isSuffixOf c.name = false
      ∧ ¬c.name = "LICENSE.md".toList
      ∧ containsSub "ipynb_checkpoints".toList
          (joinParts (["r".toList] ++ [c.name])) = false := by
    intro c hc
    rcases List.mem_cons.mp hc with rfl | hc2
    · exact ⟨⟨_, rfl⟩, by decide, by decide, by decide, by decide, by decide, by decide,
        by decide, by decide⟩
    · rcases List.mem_cons.mp hc2 with rfl | hc3
      · exact ⟨⟨_, rfl⟩, by decide, by decide, by decide, by decide, by decide, by decide,
          by decide, by decide⟩
      · cases hc3
  exact ⟨hyp, c5_ordering_amended.1 "r".toList ["r".toList] '_' _ hyp,
    c5_ordering_amended.2 _⟩

/-! ## The round-trip auto-generation example -/

/-- C1 (counterexample): for `root/{01_intro.md, 02_data/{a.md, b.md}}`
the header record is labeled `Data` (derived from the subdirectory name
`02_data`), so no record labeled `Intro` appears. -/
theorem c1_header_label_counterexample :
    buildTocEntries fsExampleC1 ["root".toList] '_' = .ok c1Entries
      ∧ TocEntry.headerRec "Intro".toList ∉ c1Entries := by decide

set_option maxRecDepth 8000 in
/-- C1 (amended): for `root/{01_intro.md, 02_data/{a.md, b.md}}` the
assembled record sequence is, in order: the `path` record for `01_intro`,
the section-break marker, a header record labeled `Data`, and the `url`
records for `02_data/a` and `02_data/b`; the serialized text contains no
literal section-break marker line; and the value `build_toc` returns is
the character-wise newline join (`"\n".join` applied to the YAML string)
of the marker-stripped dump, so every line of it holds at most one
character and no record text survives as a contiguous run. -/
theorem c1_roundtrip_amended :
    buildTocEntries fsExampleC1 ["root".toList] '_' = .ok c1Entries
      ∧ TocEntry.headerRec "Data".toList ∈ c1Entries
      ∧ build_toc (some fsExampleC1) ["root".toList] '_' = .ok c1Output
      ∧ containsSub SECTION_MARKER c1Output = false
      ∧ containsSub "path: 01_intro".toList c1Output = false
      ∧ (splitOnC '\n' c1Output).all (fun l => l.length ≤ 1) = true := by decide

end JBToc
